import Mathlib

/-!
Shallow embedding of the TripletNet repository's loss module
(`src/utils/loss.py`, class `MultiBoxLoss`) and of the ground-truth box
filtering step (`src/Dataset/dataset.py`, `VOCDataset.filter`), together
with theorems settling the specification claims about them.

Conventions of the embedding:
* PyTorch tensors become nested lists over `ℚ`; a batch axis is the outer
  list, the anchor axis the inner one.  Machine floats become exact
  rationals: none of the claims concerns rounding.
* `F.cross_entropy`'s per-element value `-log softmax(x)[t]` is
  transcendental, so it is kept abstract: every definition and theorem is
  parametric in a per-element function `ce : List ℚ → ℤ → ℚ` giving the
  cross-entropy of one logit row against one target class.  All claims
  concern the reduction, masking and selection that surround it, never the
  log-sum-exp formula itself.
* `torch.sort` on ties is modelled as a stable sort (ties keep index
  order), the deterministic refinement of PyTorch's unspecified tie order.
-/

/-- A 4-vector of location coordinates, one anchor's `(dx, dy, dw, dh)` row. -/
structure Loc4 where
  c0 : ℚ
  c1 : ℚ
  c2 : ℚ
  c3 : ℚ
deriving DecidableEq, Repr

/-- One summand of `F.smooth_l1_loss`: `0.5 d²` for `|d| < 1`, else `|d| - 0.5`. -/
def huber (d : ℚ) : ℚ :=
  if |d| < 1 then d ^ 2 / 2 else |d| - 1 / 2

/-- The `smooth_l1_loss` of one predicted row against one target row:
the sum of `huber` over the four coordinates. -/
def huber4 (a b : Loc4) : ℚ :=
  huber (a.c0 - b.c0) + huber (a.c1 - b.c1) + huber (a.c2 - b.c2) + huber (a.c3 - b.c3)

/-- The call `F.smooth_l1_loss(·, ·, size_average=False)` on two stacked `(-1, 4)`
tensors: the elementwise Huber terms, summed over everything. -/
def smoothL1SumPairs (xs ys : List Loc4) : ℚ :=
  ((xs.zip ys).map (fun p => huber4 p.1 p.2)).sum

/-- The boolean-mask gather `t[pos_idx].view(-1, 4)` of `forward`: the rows of
`t` at anchors whose label is positive, batch-flattened in order. -/
def gatherPos (t : List (List Loc4)) (label : List (List ℤ)) : List Loc4 :=
  ((t.zip label).map
    (fun rl => (rl.1.zip rl.2).filterMap
      (fun al => if 0 < al.2 then some al.1 else none))).flatten

/-- The module `torch.nn.CrossEntropyLoss(ignore_index=-1)` with its default
`size_average=True` reduction: the mean of the per-element cross-entropy
over the positions whose target is not `-1`.  (`ℚ` division by zero is 0
where PyTorch would produce NaN; no claim exercises an empty batch.) -/
def crossEntropyIgnoreMean (ce : List ℚ → ℤ → ℚ) (logits : List (List ℚ))
    (targets : List ℤ) : ℚ :=
  let kept := (logits.zip targets).filter (fun p => p.2 ≠ -1)
  ((kept.map (fun p => ce p.1 p.2)).sum) / (kept.length : ℚ)

/-- The strict order "position `j` comes before position `i`" in a stable
ascending sort of `v`: smaller value first, ties broken by index order. -/
def rankLt (v : List ℚ) (j i : ℕ) : Prop :=
  v.getD j 0 < v.getD i 0 ∨ (v.getD j 0 = v.getD i 0 ∧ j < i)

instance (v : List ℚ) (j i : ℕ) : Decidable (rankLt v j i) :=
  inferInstanceAs (Decidable (v.getD j 0 < v.getD i 0 ∨ (v.getD j 0 = v.getD i 0 ∧ j < i)))

/-- Rank of position `i` in a stable ascending sort of `v`: the composite
`v.sort(dim=1)[1].sort(dim=1)[1]` of `_hard_negative_mining`, with
`torch.sort`'s unspecified tie order modelled as stable (index order). -/
def stableRank (v : List ℚ) (i : ℕ) : ℕ :=
  ((List.range v.length).filter (fun j => decide (rankLt v j i))).length

/-- The row `loss * (-1 * neg.float())` of one sample. -/
def minedVals (lossRow : List ℚ) (negRow : List Bool) : List ℚ :=
  lossRow.zipWith (fun l n => l * (-1 * (if n then 1 else 0))) negRow

/-- One row of `_hard_negative_mining`: mark the anchors whose rank in the
ascending sort of `loss * (-neg)` is below `k * (positive count of the row)`. -/
def hardNegativeMiningRow (lossRow : List ℚ) (posRow negRow : List Bool)
    (k : ℕ) : List Bool :=
  let v := minedVals lossRow negRow
  let m := k * posRow.count true
  (List.range lossRow.length).map (fun i => decide (stableRank v i < m))

/-- The method `MultiBoxLoss._hard_negative_mining`, row by row over the batch. -/
def hardNegativeMining (lossM : List (List ℚ)) (pos neg : List (List Bool))
    (k : ℕ) : List (List Bool) :=
  (lossM.zip (pos.zip neg)).map (fun r => hardNegativeMiningRow r.1 r.2.1 r.2.2 k)

/-- The mask `label > 0` of one sample row. -/
def posMaskRow (labRow : List ℤ) : List Bool :=
  labRow.map (fun t => decide (0 < t))

/-- The mask `label == 0` of one sample row. -/
def negMaskRow (labRow : List ℤ) : List Bool :=
  labRow.map (fun t => decide (t = 0))

/-- The clamp `label.clamp(min=0)`. -/
def clampMin0 (label : List (List ℤ)) : List (List ℤ) :=
  label.map (fun row => row.map (fun t => max t 0))

/-- The scalar `self.conf_loss(xconf.transpose(1, 2), label)` of `forward`:
the batch-mean cross-entropy over the clamped labels.  `transpose(1, 2)`
merely puts the class axis where `CrossEntropyLoss` expects it; the value is
the mean of `ce` over every `(sample, anchor)` position. -/
def confScalar (ce : List ℚ → ℤ → ℚ) (xconf : List (List (List ℚ)))
    (label : List (List ℤ)) : ℚ :=
  crossEntropyIgnoreMean ce xconf.flatten (clampMin0 label).flatten

/-- The hard-negative mask computed by `forward`: the scalar classification
loss is broadcast over the `(batch, anchor)` shape of `neg` when
`_hard_negative_mining` multiplies it with `-neg.float()`. -/
def hardMask (ce : List ℚ → ℤ → ℚ) (xconf : List (List (List ℚ)))
    (label : List (List ℤ)) (k : ℕ) : List (List Bool) :=
  let L := confScalar ce xconf label
  hardNegativeMining (label.map (fun row => row.map (fun _ => L)))
    (label.map posMaskRow) (label.map negMaskRow) k

/-- The mask `(pos + hard_neg).gt(0)`: elementwise disjunction of the positive and
hard-negative masks. -/
def confMask (ce : List ℚ → ℤ → ℚ) (xconf : List (List (List ℚ)))
    (label : List (List ℤ)) (k : ℕ) : List (List Bool) :=
  (label.map posMaskRow).zipWith (fun pr hr => pr.zipWith (fun p h => p || h) hr)
    (hardMask ce xconf label k)

/-- The tensor `conf_loss * (pos + hard_neg).gt(0).float()`: the broadcast
scalar classification loss, zeroed outside the kept mask. -/
def confTerms (ce : List ℚ → ℤ → ℚ) (xconf : List (List (List ℚ)))
    (label : List (List ℤ)) (k : ℕ) : List (List ℚ) :=
  let L := confScalar ce xconf label
  (confMask ce xconf label k).map (fun row => row.map (fun b => L * (if b then 1 else 0)))

/-- The divisor `N = pos.data.float().sum() + 1e-3`: the batch-wide positive count plus
the additive epsilon. -/
def lossN (label : List (List ℤ)) : ℚ :=
  ((label.map (fun row => ((posMaskRow row).count true : ℚ))).sum) + 1 / 1000

/-- The method `MultiBoxLoss.forward(xloc, xconf, loc, label, k)`, parametric in the
per-element cross-entropy `ce`.  Returns `(loc_loss / N, conf_loss / N)`. -/
def MultiBoxLoss.forward (ce : List ℚ → ℤ → ℚ) (xloc : List (List Loc4))
    (xconf : List (List (List ℚ))) (loc : List (List Loc4))
    (label : List (List ℤ)) (k : ℕ) : ℚ × ℚ :=
  let locLoss := smoothL1SumPairs (gatherPos xloc label) (gatherPos loc label)
  let confLoss := ((confTerms ce xconf label k).map List.sum).sum
  let N := lossN label
  (locLoss / N, confLoss / N)

/-- The hard-negative mask of one sample, as a function of the broadcast
scalar `L` and the sample's label row: the row form of the mining that
`forward` performs batch-wise.  `confMask_eq_map` below proves the batch
computation decomposes into this per-row function. -/
def hardRowOfLabel (L : ℚ) (k : ℕ) (labRow : List ℤ) : List Bool :=
  hardNegativeMiningRow (labRow.map (fun _ => L)) (posMaskRow labRow) (negMaskRow labRow) k

/-- Row form of `(pos + hard_neg).gt(0)`. -/
def confRowMask (L : ℚ) (k : ℕ) (labRow : List ℤ) : List Bool :=
  (posMaskRow labRow).zipWith (fun p h => p || h) (hardRowOfLabel L k labRow)

/-- Row form of the classification-loss terms `conf_loss * mask`. -/
def confRowTerms (L : ℚ) (k : ℕ) (labRow : List ℤ) : List ℚ :=
  (confRowMask L k labRow).map (fun b => L * (if b then 1 else 0))

/-- The batch-wide number of positive anchors (`label > 0`). -/
def totalPosCount (label : List (List ℤ)) : ℕ :=
  (label.map (fun row => row.countP (fun t => decide (0 < t)))).sum

/-- The localization loss as the specification words it: the smooth-L1 terms
of the four coordinates of each anchor whose label is positive, summed over
the batch; anchors with `label ≤ 0` contribute the term `0`. -/
def locLossClaim (xloc loc : List (List Loc4)) (label : List (List ℤ)) : ℚ :=
  ((xloc.zip (loc.zip label)).map (fun r =>
    ((r.1.zip (r.2.1.zip r.2.2)).map
      (fun a => if 0 < a.2.2 then huber4 a.1 a.2.1 else 0)).sum)).sum

/-- The classification loss as the specification words it: the sum, over the
anchors the code keeps (`pos + hard_neg`), of each kept anchor's own
per-anchor cross-entropy against its clamped label, divided by `N`. -/
def confLossClaim (ce : List ℚ → ℤ → ℚ) (xconf : List (List (List ℚ)))
    (label : List (List ℤ)) (k : ℕ) : ℚ :=
  ((((confMask ce xconf label k).zip (xconf.zip (clampMin0 label))).map
    (fun r => ((r.1.zip (r.2.1.zip r.2.2)).map
      (fun a => if a.1 then ce a.2.1 a.2.2 else 0)).sum)).sum) / lossN label

/-- Shape agreement between a per-anchor tensor and the label tensor: same
batch size, and rows of equal length sample by sample. -/
def rowsMatch (t : List (List Loc4)) (label : List (List ℤ)) : Prop :=
  t.length = label.length ∧ ∀ p ∈ t.zip label, p.1.length = p.2.length

instance (t : List (List Loc4)) (label : List (List ℤ)) :
    Decidable (rowsMatch t label) := by
  unfold rowsMatch; infer_instance

/-- A concrete instantiation of the abstract per-element cross-entropy, used
to evaluate the embedding at the counterexample inputs: it reads the
per-anchor value off the head of the logit row. -/
def ceHead : List ℚ → ℤ → ℚ := fun l _ => l.headD 0

/-- The all-zero location row used in the counterexample inputs. -/
def zeroLoc : Loc4 := ⟨0, 0, 0, 0⟩

/-- A ground-truth box in corner form `(x1, y1, x2, y2)`. -/
structure GtBox where
  x1 : ℚ
  y1 : ℚ
  x2 : ℚ
  y2 : ℚ
deriving DecidableEq, Repr

/-- The check `np.max(boxes) < 1`: every coordinate of every box is below 1.  (`np.max`
of an empty array would raise, but its only evaluation site is the loop body,
which never runs on an empty box list.) -/
def allCoordsLt1 (boxes : List GtBox) : Bool :=
  boxes.all (fun b =>
    decide (b.x1 < 1) && decide (b.y1 < 1) && decide (b.x2 < 1) && decide (b.y2 < 1))

/-- The test `np.sqrt((box[2]-box[0]) * w * (box[3]-box[1]) * h) < 8` on one
box.  Over the reals `sqrt p < 8 ↔ 0 ≤ p ∧ p < 64` (`np.sqrt` of a negative
is NaN, and a NaN comparison is false), so the square root is eliminated
exactly. -/
def smallBoxTest (h w : ℚ) (b : GtBox) : Bool :=
  let p := (b.x2 - b.x1) * w * (b.y2 - b.y1) * h
  decide (0 ≤ p) && decide (p < 64)

/-- The `for box, label in zip(boxes, labels)` loop of `VOCDataset.filter`:
drop a pair when `min(box[2]-box[0], box[3]-box[1]) <= 0`, then when
`np.max(boxes) < 1` (a loop constant, hoisted into `lt1`) and the box fails
the small-box size test; keep it otherwise. -/
def filterLoop (h w : ℚ) (lt1 : Bool) : List (GtBox × ℤ) → List (GtBox × ℤ)
  | [] => []
  | (b, l) :: rest =>
    if min (b.x2 - b.x1) (b.y2 - b.y1) ≤ 0 then filterLoop h w lt1 rest
    else if lt1 && smallBoxTest h w b then filterLoop h w lt1 rest
    else (b, l) :: filterLoop h w lt1 rest

/-- The method `VOCDataset.filter(img, boxes, labels)` after the shape inference that
only extracts the pixel height `h` and width `w` of `img`; the embedding
takes those two numbers directly.  Returns the surviving boxes and their
labels. -/
def VOCDataset.filter (h w : ℚ) (boxes : List GtBox) (labels : List ℤ) :
    List GtBox × List ℤ :=
  let kept := filterLoop h w (allCoordsLt1 boxes) (boxes.zip labels)
  (kept.map Prod.fst, kept.map Prod.snd)

/-- The keep-decision of one `filterLoop` iteration, as a predicate: the box
survives the degeneracy test, and the size test when `lt1` holds. -/
def keepBox (h w : ℚ) (lt1 : Bool) (b : GtBox) : Bool :=
  !decide (min (b.x2 - b.x1) (b.y2 - b.y1) ≤ 0) && !(lt1 && smallBoxTest h w b)

/-- The box-label pairs surviving when only the non-positive width/height
test applies (the case `np.max(boxes) < 1` is false). -/
def keptPosOnly (boxes : List GtBox) (labels : List ℤ) : List (GtBox × ℤ) :=
  (boxes.zip labels).filter
    (fun p => !decide (min (p.1.x2 - p.1.x1) (p.1.y2 - p.1.y1) ≤ 0))

/-- The box-label pairs surviving when both the non-positive width/height
test and the small-box size test apply (the case `np.max(boxes) < 1`). -/
def keptBothTests (h w : ℚ) (boxes : List GtBox) (labels : List ℤ) :
    List (GtBox × ℤ) :=
  (boxes.zip labels).filter
    (fun p => !decide (min (p.1.x2 - p.1.x1) (p.1.y2 - p.1.y1) ≤ 0)
      && !(smallBoxTest h w p.1))

/-! ### Rank combinatorics

`stableRank v` enumerates positions of `v` in the order "smaller value
first, ties by index", so it is a bijection of `range v.length` onto
itself.  This is what makes the hard-negative mask keep exactly
`min (k * positives) (anchor count)` anchors of a row. -/

lemma stableRank_eq_card (v : List ℚ) (i : ℕ) :
    stableRank v i = ((Finset.range v.length).filter (fun j => rankLt v j i)).card := by
  rfl

lemma rankLt_irrefl (v : List ℚ) (i : ℕ) : ¬ rankLt v i i := by
  simp [rankLt]

lemma rankLt_trans {v : List ℚ} {a b c : ℕ} (h₁ : rankLt v a b) (h₂ : rankLt v b c) :
    rankLt v a c := by
  rcases h₁ with h₁ | ⟨e₁, l₁⟩ <;> rcases h₂ with h₂ | ⟨e₂, l₂⟩
  · exact Or.inl (h₁.trans h₂)
  · exact Or.inl (e₂ ▸ h₁)
  · exact Or.inl (e₁ ▸ h₂)
  · exact Or.inr ⟨e₁.trans e₂, l₁.trans l₂⟩

lemma rankLt_total {v : List ℚ} {i j : ℕ} (h : i ≠ j) : rankLt v i j ∨ rankLt v j i := by
  rcases lt_trichotomy (v.getD i 0) (v.getD j 0) with hv | hv | hv
  · exact Or.inl (Or.inl hv)
  · rcases Nat.lt_or_ge i j with hij | hij
    · exact Or.inl (Or.inr ⟨hv, hij⟩)
    · exact Or.inr (Or.inr ⟨hv.symm, Nat.lt_of_le_of_ne hij (Ne.symm h)⟩)
  · exact Or.inr (Or.inl hv)

lemma stableRank_lt_of_rankLt {v : List ℚ} {i j : ℕ} (hi : i < v.length)
    (h : rankLt v i j) : stableRank v i < stableRank v j := by
  rw [stableRank_eq_card, stableRank_eq_card]
  apply Finset.card_lt_card
  constructor
  · intro a ha
    rw [Finset.mem_filter] at ha ⊢
    exact ⟨ha.1, rankLt_trans ha.2 h⟩
  · intro hsub
    have hi' : i ∈ (Finset.range v.length).filter (fun a => rankLt v a j) := by
      rw [Finset.mem_filter]; exact ⟨Finset.mem_range.mpr hi, h⟩
    have := hsub hi'
    rw [Finset.mem_filter] at this
    exact rankLt_irrefl v i this.2

lemma stableRank_lt_length {v : List ℚ} {i : ℕ} (hi : i < v.length) :
    stableRank v i < v.length := by
  rw [stableRank_eq_card]
  have hsub : (Finset.range v.length).filter (fun j => rankLt v j i) ⊆
      (Finset.range v.length).erase i := by
    intro a ha
    rw [Finset.mem_filter] at ha
    rw [Finset.mem_erase]
    refine ⟨fun he => rankLt_irrefl v i (he ▸ ha.2), ha.1⟩
  calc ((Finset.range v.length).filter (fun j => rankLt v j i)).card
      ≤ ((Finset.range v.length).erase i).card := Finset.card_le_card hsub
    _ < (Finset.range v.length).card :=
        Finset.card_erase_lt_of_mem (Finset.mem_range.mpr hi)
    _ = v.length := Finset.card_range _

lemma stableRank_injOn (v : List ℚ) {i j : ℕ} (hi : i < v.length) (hj : j < v.length)
    (h : stableRank v i = stableRank v j) : i = j := by
  by_contra hne
  rcases rankLt_total hne with hlt | hlt
  · exact absurd h (Nat.ne_of_lt (stableRank_lt_of_rankLt hi hlt))
  · exact absurd h.symm (Nat.ne_of_lt (stableRank_lt_of_rankLt hj hlt))

lemma stableRank_image (v : List ℚ) :
    (Finset.range v.length).image (stableRank v) = Finset.range v.length := by
  apply Finset.eq_of_subset_of_card_le
  · intro x hx
    rw [Finset.mem_image] at hx
    obtain ⟨i, hi, rfl⟩ := hx
    exact Finset.mem_range.mpr (stableRank_lt_length (Finset.mem_range.mp hi))
  · rw [Finset.card_image_of_injOn]
    intro a ha b hb
    exact stableRank_injOn v (Finset.mem_range.mp ha) (Finset.mem_range.mp hb)

lemma card_filter_stableRank_lt (v : List ℚ) (m : ℕ) :
    ((Finset.range v.length).filter (fun i => stableRank v i < m)).card
      = min m v.length := by
  have h1 : ((Finset.range v.length).filter (fun i => stableRank v i < m)).card
      = (((Finset.range v.length).filter (fun i => stableRank v i < m)).image
          (stableRank v)).card := by
    rw [Finset.card_image_of_injOn]
    intro a ha b hb
    rw [Finset.mem_coe, Finset.mem_filter] at ha hb
    exact stableRank_injOn v (Finset.mem_range.mp ha.1) (Finset.mem_range.mp hb.1)
  have h3 : ((Finset.range v.length).filter (fun i => stableRank v i < m)).image
      (stableRank v) = (Finset.range v.length).filter (fun x => x < m) := by
    ext x
    simp only [Finset.mem_image, Finset.mem_filter, Finset.mem_range]
    constructor
    · rintro ⟨i, ⟨hi, hlt⟩, rfl⟩
      exact ⟨stableRank_lt_length hi, hlt⟩
    · rintro ⟨hx, hlt⟩
      have hx' : x ∈ (Finset.range v.length).image (stableRank v) := by
        rw [stableRank_image]; exact Finset.mem_range.mpr hx
      rw [Finset.mem_image] at hx'
      obtain ⟨i, hi, rfl⟩ := hx'
      exact ⟨i, ⟨Finset.mem_range.mp hi, hlt⟩, rfl⟩
  have h2 : (Finset.range v.length).filter (fun x => x < m)
      = Finset.range (min m v.length) := by
    ext x
    simp only [Finset.mem_filter, Finset.mem_range, Nat.lt_min]
    omega
  rw [h1, h3, h2, Finset.card_range]

lemma length_filter_range_stableRank (v : List ℚ) (m : ℕ) :
    ((List.range v.length).filter (fun i => decide (stableRank v i < m))).length
      = min m v.length := by
  have hb : ((List.range v.length).filter (fun i => decide (stableRank v i < m))).length
      = ((Finset.range v.length).filter (fun i => stableRank v i < m)).card := rfl
  rw [hb, card_filter_stableRank_lt]

/-! ### List index utilities -/

lemma getD_map_lt {α β : Type} (f : α → β) (l : List α) {s : ℕ} (h : s < l.length)
    (d : α) (d' : β) : (l.map f).getD s d' = f (l.getD s d) := by
  rw [List.getD_eq_getElem?_getD, List.getElem?_map, List.getElem?_eq_getElem h,
      List.getD_eq_getElem?_getD, List.getElem?_eq_getElem h]
  rfl

lemma getD_range_lt {n a : ℕ} (h : a < n) (d : ℕ) : (List.range n).getD a d = a := by
  rw [List.getD_eq_getElem?_getD, List.getElem?_range h]
  rfl

lemma getD_zipWith_lt {α β γ : Type} (f : α → β → γ) (l₁ : List α) (l₂ : List β)
    {a : ℕ} (h₁ : a < l₁.length) (h₂ : a < l₂.length) (d₁ : α) (d₂ : β) (d : γ) :
    (List.zipWith f l₁ l₂).getD a d = f (l₁.getD a d₁) (l₂.getD a d₂) := by
  rw [List.getD_eq_getElem?_getD, List.getElem?_zipWith, List.getElem?_eq_getElem h₁,
      List.getElem?_eq_getElem h₂, List.getD_eq_getElem?_getD, List.getElem?_eq_getElem h₁,
      List.getD_eq_getElem?_getD, List.getElem?_eq_getElem h₂]
  rfl

lemma count_true_map {α : Type} (f : α → Bool) (l : List α) :
    (l.map f).count true = l.countP f := by
  rw [List.count_eq_countP, List.countP_map]
  simp only [Function.comp_def, beq_true]

lemma count_true_eq_countP_range (l : List Bool) :
    l.count true = (List.range l.length).countP (fun a => l.getD a false) := by
  induction l with
  | nil => rfl
  | cons b t ih =>
      rw [List.count_cons, List.length_cons, List.range_succ_eq_map, List.countP_cons,
          List.countP_map]
      simp only [Function.comp_def, List.getD_cons_succ, List.getD_cons_zero, beq_true, ih]

/-! ### Row decomposition of the batch computation -/

lemma hardMask_eq_map (ce : List ℚ → ℤ → ℚ) (xconf : List (List (List ℚ)))
    (label : List (List ℤ)) (k : ℕ) :
    hardMask ce xconf label k
      = label.map (hardRowOfLabel (confScalar ce xconf label) k) := by
  unfold hardMask hardNegativeMining
  dsimp only
  rw [List.zip_map', List.zip_map', List.map_map]
  rfl

lemma confMask_eq_map (ce : List ℚ → ℤ → ℚ) (xconf : List (List (List ℚ)))
    (label : List (List ℤ)) (k : ℕ) :
    confMask ce xconf label k
      = label.map (confRowMask (confScalar ce xconf label) k) := by
  unfold confMask
  rw [hardMask_eq_map, List.zipWith_map, List.zipWith_same]
  rfl

lemma confTerms_eq_map (ce : List ℚ → ℤ → ℚ) (xconf : List (List (List ℚ)))
    (label : List (List ℤ)) (k : ℕ) :
    confTerms ce xconf label k
      = label.map (confRowTerms (confScalar ce xconf label) k) := by
  unfold confTerms
  dsimp only
  rw [confMask_eq_map, List.map_map]
  rfl

/-! ### Row-level facts about the masks -/

lemma posMaskRow_length (labRow : List ℤ) : (posMaskRow labRow).length = labRow.length := by
  simp [posMaskRow]

lemma negMaskRow_length (labRow : List ℤ) : (negMaskRow labRow).length = labRow.length := by
  simp [negMaskRow]

lemma hardNegativeMiningRow_length (lossRow : List ℚ) (posRow negRow : List Bool) (k : ℕ) :
    (hardNegativeMiningRow lossRow posRow negRow k).length = lossRow.length := by
  simp [hardNegativeMiningRow]

lemma hardRowOfLabel_length (L : ℚ) (k : ℕ) (labRow : List ℤ) :
    (hardRowOfLabel L k labRow).length = labRow.length := by
  simp [hardRowOfLabel, hardNegativeMiningRow_length]

lemma confRowMask_length (L : ℚ) (k : ℕ) (labRow : List ℤ) :
    (confRowMask L k labRow).length = labRow.length := by
  simp [confRowMask, List.length_zipWith, posMaskRow_length, hardRowOfLabel_length]

lemma posMaskRow_getD (labRow : List ℤ) {a : ℕ} (ha : a < labRow.length) :
    (posMaskRow labRow).getD a false = decide (0 < labRow.getD a 0) := by
  unfold posMaskRow
  rw [getD_map_lt _ _ ha 0]

lemma negMaskRow_getD (labRow : List ℤ) {a : ℕ} (ha : a < labRow.length) :
    (negMaskRow labRow).getD a false = decide (labRow.getD a 0 = 0) := by
  unfold negMaskRow
  rw [getD_map_lt _ _ ha 0]

lemma hardNegativeMiningRow_getD (lossRow : List ℚ) (posRow negRow : List Bool)
    (k : ℕ) {a : ℕ} (ha : a < lossRow.length) :
    (hardNegativeMiningRow lossRow posRow negRow k).getD a false
      = decide (stableRank (minedVals lossRow negRow) a < k * posRow.count true) := by
  unfold hardNegativeMiningRow
  rw [getD_map_lt _ _ (by simpa using ha) 0, getD_range_lt ha]

lemma confRowMask_getD (L : ℚ) (k : ℕ) (labRow : List ℤ) {a : ℕ}
    (ha : a < labRow.length) :
    (confRowMask L k labRow).getD a false
      = ((posMaskRow labRow).getD a false || (hardRowOfLabel L k labRow).getD a false) := by
  unfold confRowMask
  exact getD_zipWith_lt _ _ _ (by simpa [posMaskRow_length] using ha)
    (by simpa [hardRowOfLabel_length] using ha) false false false

lemma confRowTerms_getD (L : ℚ) (k : ℕ) (labRow : List ℤ) {a : ℕ}
    (ha : a < labRow.length) :
    (confRowTerms L k labRow).getD a 0
      = L * (if (confRowMask L k labRow).getD a false then 1 else 0) := by
  unfold confRowTerms
  rw [getD_map_lt _ _ (by simpa [confRowMask_length] using ha) false]

lemma hardNegativeMiningRow_count (lossRow : List ℚ) (posRow negRow : List Bool)
    (k : ℕ) (hlen : negRow.length = lossRow.length) :
    (hardNegativeMiningRow lossRow posRow negRow k).count true
      = min (k * posRow.count true) lossRow.length := by
  unfold hardNegativeMiningRow
  rw [count_true_map, List.countP_eq_length_filter]
  have hvlen : (minedVals lossRow negRow).length = lossRow.length := by
    simp [minedVals, hlen]
  rw [show lossRow.length = (minedVals lossRow negRow).length from hvlen.symm]
  exact length_filter_range_stableRank _ _

lemma confRowTerms_neg_bound (L : ℚ) (k : ℕ) (labRow : List ℤ) :
    ((List.range labRow.length).filter
      (fun a => decide ((confRowTerms L k labRow).getD a 0 ≠ 0 ∧ labRow.getD a 0 = 0))).length
      ≤ k * labRow.countP (fun t => decide (0 < t)) := by
  have hvlen : (minedVals (labRow.map (fun _ => L)) (negMaskRow labRow)).length
      = labRow.length := by
    simp [minedVals, negMaskRow]
  have hsub : ((List.range labRow.length).filter
      (fun a => decide ((confRowTerms L k labRow).getD a 0 ≠ 0 ∧ labRow.getD a 0 = 0))).length
      ≤ ((List.range labRow.length).filter
        (fun a => decide (stableRank (minedVals (labRow.map (fun _ => L)) (negMaskRow labRow)) a
          < k * (posMaskRow labRow).count true))).length := by
    rw [← List.countP_eq_length_filter, ← List.countP_eq_length_filter]
    apply List.countP_mono_left
    intro a hmem hpa
    have ha : a < labRow.length := List.mem_range.mp hmem
    rw [decide_eq_true_eq] at hpa
    obtain ⟨hne, hzero⟩ := hpa
    rw [confRowTerms_getD L k labRow ha] at hne
    have hmask : (confRowMask L k labRow).getD a false = true := by
      by_contra hmf
      rw [Bool.not_eq_true] at hmf
      rw [hmf] at hne
      simp at hne
    rw [confRowMask_getD L k labRow ha, posMaskRow_getD labRow ha, hzero] at hmask
    have h00 : decide ((0 : ℤ) < 0) = false := by decide
    rw [h00, Bool.false_or] at hmask
    unfold hardRowOfLabel at hmask
    rw [hardNegativeMiningRow_getD _ _ _ _ (by simpa using ha)] at hmask
    exact hmask
  refine hsub.trans ?_
  rw [show labRow.length
      = (minedVals (labRow.map (fun _ => L)) (negMaskRow labRow)).length from hvlen.symm,
    length_filter_range_stableRank]
  have hc : (posMaskRow labRow).count true = labRow.countP (fun t => decide (0 < t)) :=
    count_true_map _ _
  rw [hc]
  exact min_le_left _ _

/-- C1: in every sample of every batch, the number of negative anchors
(`label == 0`) whose term in the classification-loss tensor
`conf_loss * (pos + hard_neg).gt(0)` is non-zero is at most `k` times the
number of positive anchors (`label > 0`) of that same sample. -/
theorem C1_hard_negative_bound (ce : List ℚ → ℤ → ℚ) (xconf : List (List (List ℚ)))
    (label : List (List ℤ)) (k s : ℕ) :
    ((List.range (label.getD s []).length).filter
      (fun a => decide (((confTerms ce xconf label k).getD s []).getD a 0 ≠ 0 ∧
        (label.getD s []).getD a 0 = 0))).length
      ≤ k * (label.getD s []).countP (fun t => decide (0 < t)) := by
  by_cases hs : s < label.length
  · rw [confTerms_eq_map, getD_map_lt _ _ hs []]
    exact confRowTerms_neg_bound _ _ _
  · have h1 : label.getD s [] = ([] : List ℤ) := by
      rw [List.getD_eq_getElem?_getD, List.getElem?_eq_none (by omega)]
      rfl
    rw [h1]
    simp

/-- C9: for any sample row, the `_hard_negative_mining` mask marks exactly
`min (k * positive_count) anchor_count` anchors, regardless of how many
negative anchors the row has; and when the row has fewer negatives than
`k * positives` (the masks being disjoint, as `label > 0` and `label == 0`
are), the mask necessarily includes anchors that are not negatives. -/
theorem C9_mask_size (lossRow : List ℚ) (posRow negRow : List Bool) (k : ℕ)
    (hneg : negRow.length = lossRow.length) (hpos : posRow.length = lossRow.length)
    (hdisj : ∀ a < lossRow.length,
      ¬(posRow.getD a false = true ∧ negRow.getD a false = true)) :
    (hardNegativeMiningRow lossRow posRow negRow k).count true
        = min (k * posRow.count true) lossRow.length
    ∧ (negRow.count true < k * posRow.count true →
        ∃ a, (hardNegativeMiningRow lossRow posRow negRow k).getD a false = true
          ∧ negRow.getD a false = false) := by
  refine ⟨hardNegativeMiningRow_count _ _ _ _ hneg, ?_⟩
  intro hlt
  by_contra hnone
  push_neg at hnone
  have hmlen : (hardNegativeMiningRow lossRow posRow negRow k).length = lossRow.length :=
    hardNegativeMiningRow_length _ _ _ _
  have hcount1 : (hardNegativeMiningRow lossRow posRow negRow k).count true
      = (List.range lossRow.length).countP
          (fun a => (hardNegativeMiningRow lossRow posRow negRow k).getD a false) := by
    rw [count_true_eq_countP_range, hmlen]
  have hcount2 : negRow.count true
      = (List.range lossRow.length).countP (fun a => negRow.getD a false) := by
    rw [count_true_eq_countP_range, hneg]
  have hmono : (List.range lossRow.length).countP
        (fun a => (hardNegativeMiningRow lossRow posRow negRow k).getD a false)
      ≤ (List.range lossRow.length).countP (fun a => negRow.getD a false) := by
    apply List.countP_mono_left
    intro a _ hpa
    have hne := hnone a hpa
    cases hng : negRow.getD a false
    · exact absurd hng hne
    · rfl
  have hkey : min (k * posRow.count true) lossRow.length ≤ negRow.count true := by
    calc min (k * posRow.count true) lossRow.length
        = (hardNegativeMiningRow lossRow posRow negRow k).count true :=
          (hardNegativeMiningRow_count _ _ _ _ hneg).symm
      _ = _ := hcount1
      _ ≤ _ := hmono
      _ = negRow.count true := hcount2.symm
  have hnegle : negRow.count true ≤ lossRow.length := by
    rw [← hneg]
    exact List.count_le_length _ _
  rcases le_or_lt (k * posRow.count true) lossRow.length with hc | hc
  · rw [min_eq_left hc] at hkey
    omega
  · rw [min_eq_right hc.le] at hkey
    have hA : negRow.count true = negRow.length := by omega
    have hall := List.count_eq_length.mp hA
    have hpospos : 0 < posRow.count true := by
      by_contra h0
      push_neg at h0
      have h0' : posRow.count true = 0 := Nat.le_zero.mp h0
      rw [h0', Nat.mul_zero] at hlt
      exact absurd hlt (Nat.not_lt_zero _)
    obtain ⟨p, hp, hpval⟩ := List.mem_iff_getElem.mp (List.count_pos_iff.mp hpospos)
    have hpA : p < lossRow.length := by
      rw [← hpos]
      exact hp
    have hpd : posRow.getD p false = true := by
      rw [List.getD_eq_getElem?_getD, List.getElem?_eq_getElem hp]
      exact hpval
    have hplt : p < negRow.length := by omega
    have hnd : negRow.getD p false = true := by
      rw [List.getD_eq_getElem?_getD, List.getElem?_eq_getElem hplt]
      exact (hall _ (List.getElem_mem hplt)).symm
    exact hdisj p hpA ⟨hpd, hnd⟩

/-- Witness for C9 at a concrete row: one positive, two negatives, `k = 3`,
so the mask marks all three anchors and must include a non-negative one. -/
theorem C9_mask_size_witness :
    (([false, true, true] : List Bool).length = ([(5 : ℚ), 2, 9]).length
      ∧ ([true, false, false] : List Bool).length = ([(5 : ℚ), 2, 9]).length
      ∧ ∀ a < ([(5 : ℚ), 2, 9]).length,
          ¬(([true, false, false] : List Bool).getD a false = true
            ∧ ([false, true, true] : List Bool).getD a false = true))
    ∧ ((hardNegativeMiningRow [(5 : ℚ), 2, 9] [true, false, false] [false, true, true] 3).count true
        = min (3 * ([true, false, false] : List Bool).count true) ([(5 : ℚ), 2, 9]).length
      ∧ (([false, true, true] : List Bool).count true
            < 3 * ([true, false, false] : List Bool).count true →
          ∃ a, (hardNegativeMiningRow [(5 : ℚ), 2, 9] [true, false, false]
              [false, true, true] 3).getD a false = true
            ∧ ([false, true, true] : List Bool).getD a false = false)) :=
  ⟨⟨by decide, by decide, by decide⟩,
    C9_mask_size [(5 : ℚ), 2, 9] [true, false, false] [false, true, true] 3
      (by decide) (by decide) (by decide)⟩

/-! ### Normalization facts -/

lemma lossN_eq (label : List (List ℤ)) :
    lossN label = (totalPosCount label : ℚ) + 1 / 1000 := by
  unfold lossN totalPosCount
  rw [Nat.cast_list_sum, List.map_map]
  have h : ∀ row ∈ label,
      ((posMaskRow row).count true : ℚ)
        = (Nat.cast ∘ fun row => row.countP (fun t => decide (0 < t))) row := by
    intro row _
    simp only [Function.comp_apply]
    unfold posMaskRow
    rw [count_true_map]
  rw [List.map_congr_left h]

lemma lossN_pos (label : List (List ℤ)) : 0 < lossN label := by
  rw [lossN_eq]
  have h : (0 : ℚ) ≤ (totalPosCount label : ℚ) := Nat.cast_nonneg _
  linarith

/-- C5: `forward` always divides both returned scalars by the same
`N = (batch-wide positive-anchor count) + 1e-3`; the embedding is
branch-free in the positive count, and `N` is strictly positive for every
batch, zero-positive batches included. -/
theorem C5_normalization (ce : List ℚ → ℤ → ℚ) (xloc : List (List Loc4))
    (xconf : List (List (List ℚ))) (loc : List (List Loc4))
    (label : List (List ℤ)) (k : ℕ) :
    lossN label = (totalPosCount label : ℚ) + 1 / 1000
    ∧ 0 < lossN label
    ∧ MultiBoxLoss.forward ce xloc xconf loc label k
        = (smoothL1SumPairs (gatherPos xloc label) (gatherPos loc label) / lossN label,
           ((confTerms ce xconf label k).map List.sum).sum / lossN label) :=
  ⟨lossN_eq label, lossN_pos label, rfl⟩

/-! ### Localization loss: the flattened gather equals the masked sum -/

lemma smoothL1SumPairs_cons (a b : Loc4) (as bs : List Loc4) :
    smoothL1SumPairs (a :: as) (b :: bs) = huber4 a b + smoothL1SumPairs as bs := by
  unfold smoothL1SumPairs
  simp [List.zip_cons_cons]

lemma rowGather_length (xs : List Loc4) (lab : List ℤ) (h : xs.length = lab.length) :
    ((xs.zip lab).filterMap (fun al => if 0 < al.2 then some al.1 else none)).length
      = lab.countP (fun t => decide (0 < t)) := by
  induction xs generalizing lab with
  | nil =>
    cases lab with
    | nil => simp
    | cons t ts => simp at h
  | cons x xs ih =>
    cases lab with
    | nil => simp at h
    | cons t ts =>
      have h' : xs.length = ts.length := by simpa using h
      by_cases ht : 0 < t
      · simp [List.zip_cons_cons, List.filterMap_cons, List.countP_cons, ht, ih ts h']
      · simp [List.zip_cons_cons, List.filterMap_cons, List.countP_cons, ht, ih ts h']

lemma smoothL1SumPairs_append (a₁ b₁ a₂ b₂ : List Loc4) (h : a₁.length = b₁.length) :
    smoothL1SumPairs (a₁ ++ a₂) (b₁ ++ b₂)
      = smoothL1SumPairs a₁ b₁ + smoothL1SumPairs a₂ b₂ := by
  unfold smoothL1SumPairs
  rw [List.zip_append h, List.map_append, List.sum_append]

lemma rowLocLoss_eq (lab : List ℤ) : ∀ (xl l : List Loc4),
    xl.length = lab.length → l.length = lab.length →
    smoothL1SumPairs
        ((xl.zip lab).filterMap (fun al => if 0 < al.2 then some al.1 else none))
        ((l.zip lab).filterMap (fun al => if 0 < al.2 then some al.1 else none))
      = ((xl.zip (l.zip lab)).map
          (fun a => if 0 < a.2.2 then huber4 a.1 a.2.1 else 0)).sum := by
  induction lab with
  | nil =>
    intro xl l h1 h2
    have hx : xl = [] := List.length_eq_zero.mp h1
    have hl : l = [] := List.length_eq_zero.mp h2
    subst hx hl
    simp [smoothL1SumPairs]
  | cons t ts ih =>
    intro xl l h1 h2
    cases xl with
    | nil => simp at h1
    | cons x xs =>
      cases l with
      | nil => simp at h2
      | cons y ys =>
        have h1' : xs.length = ts.length := by simpa using h1
        have h2' : ys.length = ts.length := by simpa using h2
        by_cases ht : 0 < t
        · simp only [List.zip_cons_cons, List.filterMap_cons, if_pos ht, List.map_cons,
            List.sum_cons]
          rw [smoothL1SumPairs_cons, ih xs ys h1' h2']
        · simp only [List.zip_cons_cons, List.filterMap_cons, if_neg ht, List.map_cons,
            List.sum_cons]
          rw [ih xs ys h1' h2']
          ring

lemma gather_locLoss_eq : ∀ (label : List (List ℤ)) (xloc loc : List (List Loc4)),
    rowsMatch xloc label → rowsMatch loc label →
    smoothL1SumPairs (gatherPos xloc label) (gatherPos loc label)
      = locLossClaim xloc loc label := by
  intro label
  induction label with
  | nil =>
    intro xloc loc hx hl
    have hxe : xloc = [] := List.length_eq_zero.mp hx.1
    have hle : loc = [] := List.length_eq_zero.mp hl.1
    subst hxe hle
    simp [gatherPos, locLossClaim, smoothL1SumPairs]
  | cons labRow labRest ih =>
    intro xloc loc hx hl
    cases xloc with
    | nil => exact absurd hx.1 (by simp)
    | cons xlRow xlRest =>
      cases loc with
      | nil => exact absurd hl.1 (by simp)
      | cons lRow lRest =>
        have hxhead : xlRow.length = labRow.length :=
          hx.2 (xlRow, labRow) (by simp [List.zip_cons_cons])
        have hlhead : lRow.length = labRow.length :=
          hl.2 (lRow, labRow) (by simp [List.zip_cons_cons])
        have hxtail : rowsMatch xlRest labRest := by
          refine ⟨by simpa using hx.1, fun p hp => hx.2 p ?_⟩
          simp [List.zip_cons_cons, hp]
        have hltail : rowsMatch lRest labRest := by
          refine ⟨by simpa using hl.1, fun p hp => hl.2 p ?_⟩
          simp [List.zip_cons_cons, hp]
        have hgx : gatherPos (xlRow :: xlRest) (labRow :: labRest)
            = ((xlRow.zip labRow).filterMap (fun al => if 0 < al.2 then some al.1 else none))
              ++ gatherPos xlRest labRest := by
          simp [gatherPos, List.zip_cons_cons]
        have hgl : gatherPos (lRow :: lRest) (labRow :: labRest)
            = ((lRow.zip labRow).filterMap (fun al => if 0 < al.2 then some al.1 else none))
              ++ gatherPos lRest labRest := by
          simp [gatherPos, List.zip_cons_cons]
        have hlen : ((xlRow.zip labRow).filterMap
              (fun al => if 0 < al.2 then some al.1 else none)).length
            = ((lRow.zip labRow).filterMap
              (fun al => if 0 < al.2 then some al.1 else none)).length := by
          rw [rowGather_length _ _ hxhead, rowGather_length _ _ hlhead]
        rw [hgx, hgl, smoothL1SumPairs_append _ _ _ _ hlen,
          rowLocLoss_eq labRow xlRow lRow hxhead hlhead,
          ih xlRest lRest hxtail hltail]
        simp [locLossClaim, List.zip_cons_cons]

/-- C4: the first scalar returned by `forward` is the smooth-L1 distance over
the four coordinates of the positive anchors only (`label > 0`), summed and
divided by `N`; anchors with `label ≤ 0` contribute a zero term. -/
theorem C4_localization_loss (ce : List ℚ → ℤ → ℚ) (xconf : List (List (List ℚ)))
    (xloc loc : List (List Loc4)) (label : List (List ℤ)) (k : ℕ)
    (hx : rowsMatch xloc label) (hl : rowsMatch loc label) :
    (MultiBoxLoss.forward ce xloc xconf loc label k).1
      = locLossClaim xloc loc label / lossN label := by
  show smoothL1SumPairs (gatherPos xloc label) (gatherPos loc label) / lossN label = _
  rw [gather_locLoss_eq label xloc loc hx hl]

/-- Witness for C4 at a concrete batch: one sample with one positive and one
negative anchor. -/
theorem C4_localization_loss_witness :
    rowsMatch [[⟨2, 0, 0, 0⟩, ⟨9, 9, 9, 9⟩]] [[1, 0]]
    ∧ rowsMatch [[zeroLoc, zeroLoc]] [[1, 0]]
    ∧ (MultiBoxLoss.forward ceHead [[⟨2, 0, 0, 0⟩, ⟨9, 9, 9, 9⟩]] [[[0], [0]]]
        [[zeroLoc, zeroLoc]] [[1, 0]] 3).1
      = locLossClaim [[⟨2, 0, 0, 0⟩, ⟨9, 9, 9, 9⟩]] [[zeroLoc, zeroLoc]] [[1, 0]]
        / lossN [[1, 0]] :=
  ⟨by decide, by decide,
    C4_localization_loss ceHead [[[0], [0]]] [[⟨2, 0, 0, 0⟩, ⟨9, 9, 9, 9⟩]]
      [[zeroLoc, zeroLoc]] [[1, 0]] 3 (by decide) (by decide)⟩


/-! ### Concrete evaluation of the classification path

The counterexample inputs for C2, C3 and C8.  Rational arithmetic does not
kernel-reduce, so the masks are evaluated through `norm_num` layer by layer:
first the batch-mean scalar, then the mined row, then the kept mask. -/

lemma evalScalar1 : confScalar ceHead [[[1], [4], [7]]] [[1, 0, 0]] = 4 := by
  norm_num [confScalar, crossEntropyIgnoreMean, clampMin0, ceHead]

lemma evalHardRow1 : hardRowOfLabel 4 1 [1, 0, 0] = [false, true, false] := by
  norm_num [hardRowOfLabel, hardNegativeMiningRow, minedVals, posMaskRow, negMaskRow,
    stableRank, rankLt, show List.range 3 = [0, 1, 2] by decide,
    List.getD_cons_zero, List.getD_cons_succ, List.filter]
  decide

lemma evalHardMask1 : hardMask ceHead [[[1], [4], [7]]] [[1, 0, 0]] 1
    = [[false, true, false]] := by
  rw [hardMask_eq_map, evalScalar1]
  simp [evalHardRow1]

lemma evalConfRowMask1 : confRowMask 4 1 [1, 0, 0] = [true, true, false] := by
  unfold confRowMask
  rw [evalHardRow1]
  decide

lemma evalConfValue1 :
    (MultiBoxLoss.forward ceHead [[zeroLoc, zeroLoc, zeroLoc]] [[[1], [4], [7]]]
        [[zeroLoc, zeroLoc, zeroLoc]] [[1, 0, 0]] 1).2 = 8000 / 1001 := by
  show ((confTerms ceHead [[[1], [4], [7]]] [[1, 0, 0]] 1).map List.sum).sum
      / lossN [[1, 0, 0]] = 8000 / 1001
  rw [confTerms_eq_map, evalScalar1]
  norm_num [confRowTerms, evalConfRowMask1, lossN, posMaskRow]

lemma evalClaimValue1 : confLossClaim ceHead [[[1], [4], [7]]] [[1, 0, 0]] 1
    = 5000 / 1001 := by
  unfold confLossClaim
  norm_num [confMask_eq_map, evalScalar1, evalConfRowMask1, clampMin0, ceHead,
    lossN, posMaskRow]

/-- C2 (evaluation at the failing input): with one positive and two negative
anchors, `k = 1` and per-anchor cross-entropies `1, 4, 7`, the classification
scalar `forward` returns is `mean * |kept| / N = 8 / N`, not the spec's sum
of the kept anchors' own per-anchor cross-entropies `(1 + 4) / N = 5 / N`:
the code's `CrossEntropyLoss` keeps its default mean reduction. -/
theorem C2_conf_loss_mismatch :
    (MultiBoxLoss.forward ceHead [[zeroLoc, zeroLoc, zeroLoc]] [[[1], [4], [7]]]
        [[zeroLoc, zeroLoc, zeroLoc]] [[1, 0, 0]] 1).2 = 8000 / 1001
    ∧ confLossClaim ceHead [[[1], [4], [7]]] [[1, 0, 0]] 1 = 5000 / 1001
    ∧ (MultiBoxLoss.forward ceHead [[zeroLoc, zeroLoc, zeroLoc]] [[[1], [4], [7]]]
        [[zeroLoc, zeroLoc, zeroLoc]] [[1, 0, 0]] 1).2
      ≠ confLossClaim ceHead [[[1], [4], [7]]] [[1, 0, 0]] 1 := by
  refine ⟨evalConfValue1, evalClaimValue1, ?_⟩
  rw [evalConfValue1, evalClaimValue1]
  norm_num

/-- C3 (evaluation at the failing input): on the same batch, anchors 1 and 2
are both negative, the mask retains anchor 1 and discards anchor 2, yet
anchor 1's per-anchor cross-entropy (4) is strictly smaller than anchor 2's
(7): the mined values are the broadcast batch-mean scalar times `-neg`, under
which all negatives tie, so the selection does not follow per-anchor loss. -/
theorem C3_selection_mismatch :
    negMaskRow [1, 0, 0] = [false, true, true]
    ∧ hardMask ceHead [[[1], [4], [7]]] [[1, 0, 0]] 1 = [[false, true, false]]
    ∧ ceHead [4] 0 < ceHead [7] 0 := by
  refine ⟨by decide, evalHardMask1, ?_⟩
  norm_num [ceHead]

lemma evalScalarA : confScalar ceHead [[[1], [3]]] [[1, -1]] = 2 := by
  norm_num [confScalar, crossEntropyIgnoreMean, clampMin0, ceHead]

lemma evalScalarB : confScalar ceHead [[[1], [11]]] [[1, -1]] = 6 := by
  norm_num [confScalar, crossEntropyIgnoreMean, clampMin0, ceHead]

lemma evalHardRowA : hardRowOfLabel 2 3 [1, -1] = [true, true] := by
  norm_num [hardRowOfLabel, hardNegativeMiningRow, minedVals, posMaskRow, negMaskRow,
    stableRank, rankLt, show List.range 2 = [0, 1] by decide,
    List.getD_cons_zero, List.getD_cons_succ, List.filter]

lemma evalHardRowB : hardRowOfLabel 6 3 [1, -1] = [true, true] := by
  norm_num [hardRowOfLabel, hardNegativeMiningRow, minedVals, posMaskRow, negMaskRow,
    stableRank, rankLt, show List.range 2 = [0, 1] by decide,
    List.getD_cons_zero, List.getD_cons_succ, List.filter]

lemma evalConfRowMaskA : confRowMask 2 3 [1, -1] = [true, true] := by
  unfold confRowMask
  rw [evalHardRowA]
  decide

lemma evalConfRowMaskB : confRowMask 6 3 [1, -1] = [true, true] := by
  unfold confRowMask
  rw [evalHardRowB]
  decide

lemma evalConfValueA :
    (MultiBoxLoss.forward ceHead [[zeroLoc, zeroLoc]] [[[1], [3]]]
        [[zeroLoc, zeroLoc]] [[1, -1]] 3).2 = 4000 / 1001 := by
  show ((confTerms ceHead [[[1], [3]]] [[1, -1]] 3).map List.sum).sum
      / lossN [[1, -1]] = 4000 / 1001
  rw [confTerms_eq_map, evalScalarA]
  norm_num [confRowTerms, evalConfRowMaskA, lossN, posMaskRow]

lemma evalConfValueB :
    (MultiBoxLoss.forward ceHead [[zeroLoc, zeroLoc]] [[[1], [11]]]
        [[zeroLoc, zeroLoc]] [[1, -1]] 3).2 = 12000 / 1001 := by
  show ((confTerms ceHead [[[1], [11]]] [[1, -1]] 3).map List.sum).sum
      / lossN [[1, -1]] = 12000 / 1001
  rw [confTerms_eq_map, evalScalarB]
  norm_num [confRowTerms, evalConfRowMaskB, lossN, posMaskRow]

/-- C8 (evaluation at the failing input): changing only the logits of the
anchor labelled `-1` changes the classification loss (`4/N` versus `12/N`),
and that anchor even sits inside the kept mask: `label.clamp(min=0)` runs
before `CrossEntropyLoss`, so `ignore_index=-1` never fires and the
formerly-ignored anchor enters the batch mean and the mask. -/
theorem C8_ignored_anchor_affects_loss :
    (MultiBoxLoss.forward ceHead [[zeroLoc, zeroLoc]] [[[1], [3]]]
        [[zeroLoc, zeroLoc]] [[1, -1]] 3).2
      ≠ (MultiBoxLoss.forward ceHead [[zeroLoc, zeroLoc]] [[[1], [11]]]
        [[zeroLoc, zeroLoc]] [[1, -1]] 3).2
    ∧ confMask ceHead [[[1], [3]]] [[1, -1]] 3 = [[true, true]] := by
  constructor
  · rw [evalConfValueA, evalConfValueB]
    norm_num
  · rw [confMask_eq_map, evalScalarA]
    simp [evalConfRowMaskA]

/-! ### The ground-truth box filtering -/

lemma filterLoop_eq_filter (h w : ℚ) (lt1 : Bool) (ps : List (GtBox × ℤ)) :
    filterLoop h w lt1 ps = ps.filter (fun p => keepBox h w lt1 p.1) := by
  induction ps with
  | nil => rfl
  | cons p rest ih =>
    obtain ⟨b, l⟩ := p
    unfold filterLoop
    by_cases h1 : min (b.x2 - b.x1) (b.y2 - b.y1) ≤ 0
    · rw [if_pos h1, ih, List.filter_cons, if_neg]
      simp [keepBox, h1]
    · by_cases h2 : (lt1 && smallBoxTest h w b) = true
      · rw [if_neg h1, if_pos h2, ih, List.filter_cons, if_neg]
        simp [keepBox, h1, h2]
      · rw [if_neg h1, if_neg h2, ih, List.filter_cons, if_pos]
        simp only [Bool.and_eq_true] at h2
        simp [keepBox, h1, h2]
        cases hl : lt1
        · exact Or.inl rfl
        · cases hs : smallBoxTest h w b
          · exact Or.inr rfl
          · exact absurd ⟨hl, hs⟩ h2

/-- C6: every box surviving `VOCDataset.filter` has strictly positive width
and height — boxes with non-positive extent are dropped, without any error
path — and the empty input yields empty outputs. -/
theorem C6_degenerate_filtering (h w : ℚ) (boxes : List GtBox) (labels : List ℤ) :
    (∀ b ∈ (VOCDataset.filter h w boxes labels).1,
        0 < b.x2 - b.x1 ∧ 0 < b.y2 - b.y1)
    ∧ VOCDataset.filter h w [] [] = ([], []) := by
  constructor
  · intro b hb
    unfold VOCDataset.filter at hb
    rw [filterLoop_eq_filter] at hb
    simp only [List.mem_map] at hb
    obtain ⟨⟨b', l'⟩, hmem, rfl⟩ := hb
    have hk := List.of_mem_filter hmem
    unfold keepBox at hk
    simp only [Bool.and_eq_true, Bool.not_eq_true', decide_eq_false_iff_not] at hk
    have hmin : 0 < min (b'.x2 - b'.x1) (b'.y2 - b'.y1) := not_le.mp hk.1
    rw [lt_min_iff] at hmin
    exact hmin
  · rfl

/-- Witness for C6: a surviving box indeed has positive width and height. -/
theorem C6_degenerate_filtering_witness :
    0 < (1 : ℚ) / 2 - 0 ∧ 0 < (1 : ℚ) / 2 - 0 :=
  (C6_degenerate_filtering 100 100 [⟨0, 0, 1/2, 1/2⟩] [5]).1 ⟨0, 0, 1/2, 1/2⟩
    (by norm_num [VOCDataset.filter, filterLoop, allCoordsLt1, smallBoxTest])

/-- C7: a box with positive width and height, from an image with
non-negative pixel dimensions, survives `VOCDataset.filter` exactly when it
is not the case that all coordinates of all the image's boxes are below 1
(normalized units) and the box's squared geometric-mean pixel size
`(x2-x1)*w*(y2-y1)*h` is below `8² = 64`. -/
theorem C7_small_box_test (h w : ℚ) (boxes : List GtBox) (labels : List ℤ)
    (b : GtBox) (l : ℤ) (hh : 0 ≤ h) (hw : 0 ≤ w)
    (hmem : (b, l) ∈ boxes.zip labels)
    (hbw : 0 < b.x2 - b.x1) (hbh : 0 < b.y2 - b.y1) :
    b ∈ (VOCDataset.filter h w boxes labels).1
      ↔ ¬(allCoordsLt1 boxes = true
          ∧ (b.x2 - b.x1) * w * (b.y2 - b.y1) * h < 64) := by
  have hp0 : 0 ≤ (b.x2 - b.x1) * w * (b.y2 - b.y1) * h :=
    mul_nonneg (mul_nonneg (mul_nonneg hbw.le hw) hbh.le) hh
  have hminpos : ¬ min (b.x2 - b.x1) (b.y2 - b.y1) ≤ 0 := by
    rw [not_le, lt_min_iff]
    exact ⟨hbw, hbh⟩
  unfold VOCDataset.filter
  rw [filterLoop_eq_filter]
  constructor
  · intro hb hcond
    obtain ⟨hlt1, hsm⟩ := hcond
    simp only [List.mem_map] at hb
    obtain ⟨⟨b', l'⟩, hmem', rfl⟩ := hb
    have hk := List.of_mem_filter hmem'
    unfold keepBox smallBoxTest at hk
    rw [hlt1] at hk
    simp only [Bool.and_eq_true, Bool.not_eq_true', Bool.true_and,
      decide_eq_false_iff_not, Bool.and_eq_false_iff, decide_eq_true_eq] at hk
    rcases hk.2 with hbad | hbad
    · exact hbad hp0
    · exact hbad hsm
  · intro hcond
    have hkeep : keepBox h w (allCoordsLt1 boxes) b = true := by
      unfold keepBox smallBoxTest
      cases hlt1 : allCoordsLt1 boxes
      · simp [hminpos]
      · have hge : ¬ (b.x2 - b.x1) * w * (b.y2 - b.y1) * h < 64 := by
          intro hlt
          exact hcond ⟨hlt1, hlt⟩
        simp [hminpos, hge]
    have hmemf : (b, l) ∈ (boxes.zip labels).filter
        (fun p => keepBox h w (allCoordsLt1 boxes) p.1) :=
      List.mem_filter.mpr ⟨hmem, hkeep⟩
    exact List.mem_map_of_mem Prod.fst hmemf

/-- Witness for C7: a tiny normalized box (pixel geometric mean 1 < 8) is
dropped by the size test. -/
theorem C7_small_box_test_witness :
    (0 : ℚ) ≤ 100 ∧ (0 : ℚ) ≤ 100
    ∧ ((⟨0, 0, 1/100, 1/100⟩ : GtBox), (3 : ℤ))
        ∈ ([⟨0, 0, 1/100, 1/100⟩] : List GtBox).zip [(3 : ℤ)]
    ∧ 0 < (1 : ℚ) / 100 - 0 ∧ 0 < (1 : ℚ) / 100 - 0
    ∧ ((⟨0, 0, 1/100, 1/100⟩ : GtBox)
          ∈ (VOCDataset.filter 100 100 [⟨0, 0, 1/100, 1/100⟩] [3]).1
        ↔ ¬(allCoordsLt1 [(⟨0, 0, 1/100, 1/100⟩ : GtBox)] = true
            ∧ ((1 : ℚ) / 100 - 0) * 100 * ((1 : ℚ) / 100 - 0) * 100 < 64)) :=
  ⟨by norm_num, by norm_num, List.Mem.head _, by norm_num, by norm_num,
    C7_small_box_test 100 100 [⟨0, 0, 1/100, 1/100⟩] [3] ⟨0, 0, 1/100, 1/100⟩ 3
      (by norm_num) (by norm_num) (List.Mem.head _) (by norm_num) (by norm_num)⟩

/-- C10: the normalized-units check `np.max(boxes) < 1` is a property of the
whole box array: when any coordinate of any box is at least 1 only the
degeneracy test filters, and when all coordinates are below 1 the size test
is applied to every box. -/
theorem C10_size_test_scope (h w : ℚ) (boxes : List GtBox) (labels : List ℤ) :
    (allCoordsLt1 boxes = false →
      VOCDataset.filter h w boxes labels
        = ((keptPosOnly boxes labels).map Prod.fst,
           (keptPosOnly boxes labels).map Prod.snd))
    ∧ (allCoordsLt1 boxes = true →
      VOCDataset.filter h w boxes labels
        = ((keptBothTests h w boxes labels).map Prod.fst,
           (keptBothTests h w boxes labels).map Prod.snd)) := by
  constructor
  · intro hfalse
    unfold VOCDataset.filter keptPosOnly
    rw [filterLoop_eq_filter, hfalse]
    have he : (fun p : GtBox × ℤ => keepBox h w false p.1)
        = (fun p => !decide (min (p.1.x2 - p.1.x1) (p.1.y2 - p.1.y1) ≤ 0)) := by
      funext p
      unfold keepBox
      simp
    rw [he]
  · intro htrue
    unfold VOCDataset.filter keptBothTests
    rw [filterLoop_eq_filter, htrue]
    have he : (fun p : GtBox × ℤ => keepBox h w true p.1)
        = (fun p => !decide (min (p.1.x2 - p.1.x1) (p.1.y2 - p.1.y1) ≤ 0)
            && !(smallBoxTest h w p.1)) := by
      funext p
      unfold keepBox
      simp
    rw [he]

/-- Witness for C10, first case: a batch with a coordinate `≥ 1` is filtered
by the degeneracy test alone. -/
theorem C10_size_test_scope_witness :
    allCoordsLt1 [⟨0, 0, 2, 2⟩, ⟨5, 5, 3, 3⟩] = false
    ∧ VOCDataset.filter 100 100 [⟨0, 0, 2, 2⟩, ⟨5, 5, 3, 3⟩] [1, 2]
        = ((keptPosOnly [⟨0, 0, 2, 2⟩, ⟨5, 5, 3, 3⟩] [1, 2]).map Prod.fst,
           (keptPosOnly [⟨0, 0, 2, 2⟩, ⟨5, 5, 3, 3⟩] [1, 2]).map Prod.snd) :=
  ⟨by decide, (C10_size_test_scope 100 100 [⟨0, 0, 2, 2⟩, ⟨5, 5, 3, 3⟩] [1, 2]).1 (by decide)⟩
